import Mathlib

/-!
Verification of the nova versioned-object contract (spec.md) and the
attach-interfaces controller. The object layer (`nova/objects/base.py`,
`nova/objects/instance.py`) is absent from the source tree — only its test
suite is present — so the entity model below is modelled from the spec's
words (each such definition says so in its doc comment). The
attach-interfaces controller is embedded directly from
`nova/api/openstack/compute/contrib/attach_interfaces.py`.
-/

namespace Nova

/-! ## Digit and character machinery (shared by datetime and IP formatting) -/

/-- Character for a single digit value (0-15), lowercase hex letters. -/
def digitChar (d : Nat) : Char :=
  if d < 10 then Char.ofNat (48 + d) else Char.ofNat (87 + d)

/-- Numeric value of a digit character. -/
def charDigit (c : Char) : Nat :=
  if 97 ≤ c.toNat then c.toNat - 87 else c.toNat - 48

/-- Is `c` a digit character valid in base `b` (`b ≤ 16`)? -/
def isDigitB (b : Nat) (c : Char) : Bool :=
  (decide (48 ≤ c.toNat) && decide (c.toNat ≤ 57) ||
   decide (97 ≤ c.toNat) && decide (c.toNat ≤ 102)) && decide (charDigit c < b)

theorem charDigit_digitChar : ∀ d, d < 16 → charDigit (digitChar d) = d := by decide

theorem digitChar_range : ∀ d, d < 16 →
    ((48 ≤ (digitChar d).toNat ∧ (digitChar d).toNat ≤ 57) ∨
     (97 ≤ (digitChar d).toNat ∧ (digitChar d).toNat ≤ 102)) := by decide

theorem digitChar_ne_dot : ∀ d, d < 16 → digitChar d ≠ '.' := by decide

theorem digitChar_ne_colon : ∀ d, d < 16 → digitChar d ≠ ':' := by decide

theorem isDigitB_digitChar {b d : Nat} (hb : b ≤ 16) (hd : d < b) :
    isDigitB b (digitChar d) = true := by
  have h16 : d < 16 := lt_of_lt_of_le hd hb
  have hr := digitChar_range d h16
  have hc := charDigit_digitChar d h16
  simp only [isDigitB, Bool.and_eq_true, Bool.or_eq_true, decide_eq_true_eq]
  rw [hc]
  omega

theorem charDigit_lt_of_isDigitB {b : Nat} {c : Char} (h : isDigitB b c = true) :
    charDigit c < b := by
  simp only [isDigitB, Bool.and_eq_true, Bool.or_eq_true, decide_eq_true_eq] at h
  exact h.2

/-- Big-endian character rendering of `n` in base `b` (no leading zeros; `0 ↦ "0"`). -/
def toCharsB (b n : Nat) : List Char :=
  if n = 0 then ['0'] else ((Nat.digits b n).map digitChar).reverse

/-- Numeric value of a big-endian digit-character list. -/
def valB (b : Nat) (cs : List Char) : Nat :=
  cs.foldl (fun acc c => acc * b + charDigit c) 0

theorem valB_foldr (b : Nat) (l : List Nat) (a : Nat) (hl : ∀ d ∈ l, d < 16) :
    ((l.map digitChar).reverse.foldl (fun acc c => acc * b + charDigit c) a)
      = a * b ^ l.length + Nat.ofDigits b l := by
  induction l generalizing a with
  | nil => simp [Nat.ofDigits_nil]
  | cons d t ih =>
    have hd : d < 16 := hl d (List.mem_cons_self d t)
    have ht : ∀ x ∈ t, x < 16 := fun x hx => hl x (List.mem_cons_of_mem d hx)
    simp only [List.map_cons, List.reverse_cons, List.foldl_append, List.foldl_cons,
      List.foldl_nil, Nat.ofDigits_cons, List.length_cons]
    rw [ih a ht, charDigit_digitChar d hd]
    ring

theorem valB_toCharsB {b : Nat} (hb1 : 1 < b) (hb2 : b ≤ 16) (n : Nat) :
    valB b (toCharsB b n) = n := by
  unfold toCharsB valB
  by_cases h : n = 0
  · subst h
    simp [charDigit]
  · simp only [h, if_false]
    have hlt : ∀ d ∈ Nat.digits b n, d < 16 :=
      fun d hd => lt_of_lt_of_le (Nat.digits_lt_base hb1 hd) hb2
    have := valB_foldr b (Nat.digits b n) 0 hlt
    rw [this, Nat.ofDigits_digits]
    simp

theorem toCharsB_ne_nil {b n : Nat} (_hb : 1 < b) : toCharsB b n ≠ [] := by
  unfold toCharsB
  by_cases h : n = 0
  · simp [h]
  · simp only [h, if_false]
    intro hc
    rw [List.reverse_eq_nil_iff, List.map_eq_nil_iff] at hc
    exact (Nat.digits_ne_nil_iff_ne_zero.mpr h) hc

theorem toCharsB_digits {b n : Nat} (hb1 : 1 < b) (hb2 : b ≤ 16) :
    ∀ c ∈ toCharsB b n, isDigitB b c = true := by
  intro c hc
  unfold toCharsB at hc
  by_cases h : n = 0
  · simp [h] at hc
    subst hc
    have h0 : isDigitB b (digitChar 0) = true := isDigitB_digitChar hb2 (by omega)
    simpa [digitChar] using h0
  · simp only [h, if_false, List.mem_reverse, List.mem_map] at hc
    obtain ⟨d, hd, rfl⟩ := hc
    exact isDigitB_digitChar hb2 (Nat.digits_lt_base hb1 hd)

theorem toCharsB_mem_ne {b n : Nat} {x : Char} (hb1 : 1 < b) (hb2 : b ≤ 16)
    (hx : ∀ d, d < 16 → digitChar d ≠ x) : ∀ c ∈ toCharsB b n, c ≠ x := by
  intro c hc
  unfold toCharsB at hc
  by_cases h : n = 0
  · simp [h] at hc
    subst hc
    exact hx 0 (by omega)
  · simp only [h, if_false, List.mem_reverse, List.mem_map] at hc
    obtain ⟨d, hd, rfl⟩ := hc
    exact hx d (lt_of_lt_of_le (Nat.digits_lt_base hb1 hd) hb2)

/-- Split off the longest base-`b` digit prefix. -/
def spanDigits (b : Nat) : List Char → List Char × List Char
  | [] => ([], [])
  | c :: cs =>
    if isDigitB b c then
      let p := spanDigits b cs
      (c :: p.1, p.2)
    else ([], c :: cs)

theorem spanDigits_append {b : Nat} {xs ys : List Char}
    (h1 : ∀ c ∈ xs, isDigitB b c = true)
    (h2 : ∀ c, ys.head? = some c → isDigitB b c = false) :
    spanDigits b (xs ++ ys) = (xs, ys) := by
  induction xs with
  | nil =>
    simp only [List.nil_append]
    cases ys with
    | nil => rfl
    | cons y t =>
      have := h2 y rfl
      simp [spanDigits, this]
  | cons x xt ih =>
    have hx : isDigitB b x = true := h1 x (List.mem_cons_self x xt)
    have hxt : ∀ c ∈ xt, isDigitB b c = true := fun c hc => h1 c (List.mem_cons_of_mem x hc)
    simp [spanDigits, hx, ih hxt]

theorem spanDigits_suffix {b : Nat} : ∀ cs : List Char,
    ∀ c ∈ (spanDigits b cs).2, c ∈ cs := by
  intro cs
  induction cs with
  | nil => simp [spanDigits]
  | cons x t ih =>
    intro c hc
    by_cases hx : isDigitB b x
    · simp only [spanDigits, hx, if_true] at hc
      exact List.mem_cons_of_mem x (ih c hc)
    · simp only [spanDigits, hx, if_false] at hc
      exact hc

/-- Parse a nonempty base-`b` number prefix; return its value and the rest. -/
def parseNatB (b : Nat) (cs : List Char) : Option (Nat × List Char) :=
  let p := spanDigits b cs
  if p.1 = [] then none else some (valB b p.1, p.2)

theorem parseNatB_format {b n : Nat} {rest : List Char} (hb1 : 1 < b) (hb2 : b ≤ 16)
    (hr : ∀ c, rest.head? = some c → isDigitB b c = false) :
    parseNatB b (toCharsB b n ++ rest) = some (n, rest) := by
  unfold parseNatB
  simp only [spanDigits_append (toCharsB_digits hb1 hb2) hr]
  rw [if_neg (toCharsB_ne_nil hb1), valB_toCharsB hb1 hb2]

/-- Join character chunks with a separator. -/
def sepJoin (sep : Char) : List (List Char) → List Char
  | [] => []
  | [g] => g
  | g :: g2 :: gs => g ++ sep :: sepJoin sep (g2 :: gs)

/-- Parse exactly `k ≥ 1` base-`b` numbers separated by `sep`, consuming all input. -/
def parseSeq (b : Nat) (sep : Char) : Nat → List Char → Option (List Nat)
  | 0, _ => none
  | 1, cs =>
    match parseNatB b cs with
    | some (n, []) => some [n]
    | _ => none
  | k + 2, cs =>
    match parseNatB b cs with
    | some (n, c :: rest) =>
      if c = sep then (parseSeq b sep (k + 1) rest).map (n :: ·) else none
    | _ => none

theorem parseSeq_format {b : Nat} {sep : Char} (hb1 : 1 < b) (hb2 : b ≤ 16)
    (hsep : isDigitB b sep = false) :
    ∀ ns : List Nat, ns ≠ [] →
      parseSeq b sep ns.length (sepJoin sep (ns.map (toCharsB b))) = some ns := by
  intro ns
  induction ns with
  | nil => intro h; exact absurd rfl h
  | cons n t ih =>
    intro _
    cases t with
    | nil =>
      have h0 : toCharsB b n ++ ([] : List Char) = toCharsB b n := List.append_nil _
      simp only [List.map_cons, List.map_nil, sepJoin, List.length_cons, List.length_nil,
        parseSeq]
      rw [← h0, parseNatB_format hb1 hb2 (by intro c hc; simp at hc)]
    | cons m t2 =>
      simp only [List.map_cons, sepJoin, List.length_cons, parseSeq]
      rw [parseNatB_format hb1 hb2
        (by intro c hc; simp only [List.head?_cons, Option.some_inj] at hc; exact hc ▸ hsep)]
      simp only [if_pos rfl]
      have := ih (by simp)
      simp only [List.length_cons, List.map_cons, sepJoin] at this
      rw [this]
      rfl

theorem parseSeq_no_sep {b : Nat} {sep : Char} (k : Nat) {cs : List Char}
    (h : sep ∉ cs) : parseSeq b sep (k + 2) cs = none := by
  simp only [parseSeq]
  cases hp : parseNatB b cs with
  | none => rfl
  | some p =>
    obtain ⟨n, rest⟩ := p
    cases rest with
    | nil => rfl
    | cons c r =>
      have hc : c ∈ cs := by
        unfold parseNatB at hp
        by_cases hsp : (spanDigits b cs).1 = []
        · simp [hsp] at hp
        · simp only [hsp, if_neg, if_false, Option.some_inj, Prod.mk.injEq] at hp
          exact spanDigits_suffix cs c (by rw [hp.2]; exact List.mem_cons_self c r)
      have hne : c ≠ sep := fun hceq => h (hceq ▸ hc)
      simp [hne]

/-! ## Datetime model.
Modelled from the spec: the datetime coercion layer of the object model
(`nova/objects/*` is absent from the source tree). A datetime value is a
calendar timestamp with microseconds and a UTC-tag; coercion normalizes to
UTC, truncates to whole seconds, and serialization is the ISO-8601-with-Z
string. -/

structure DT where
  year : Nat
  month : Nat
  day : Nat
  hour : Nat
  minute : Nat
  second : Nat
  microsecond : Nat
  tzUtc : Bool
deriving DecidableEq

/-- Two-digit zero-padded rendering. -/
def pad2 (n : Nat) : List Char := [digitChar (n / 10 % 10), digitChar (n % 10)]

/-- Four-digit zero-padded rendering. -/
def pad4 (n : Nat) : List Char :=
  [digitChar (n / 1000 % 10), digitChar (n / 100 % 10), digitChar (n / 10 % 10),
   digitChar (n % 10)]

/-- Modelled from the spec: ISO-8601-with-Z rendering (`timeutils.isotime`). -/
def isotime (d : DT) : List Char :=
  pad4 d.year ++ '-' :: (pad2 d.month ++ '-' :: (pad2 d.day ++ 'T' ::
    (pad2 d.hour ++ ':' :: (pad2 d.minute ++ ':' :: (pad2 d.second ++ ['Z'])))))

def val2 (a b : Char) : Nat := 10 * (charDigit a % 10) + charDigit b % 10

def val4 (a b c d : Char) : Nat :=
  1000 * (charDigit a % 10) + 100 * (charDigit b % 10) + 10 * (charDigit c % 10) +
    charDigit d % 10

/-- Modelled from the spec: ISO-8601-with-Z parsing (`timeutils.parse_isotime`);
the result is UTC-tagged with whole-second precision. -/
def parseIso (cs : List Char) : Option DT :=
  match cs with
  | [y1, y2, y3, y4, q1, m1, m2, q2, d1, d2, tc, h1, h2, c1, i1, i2, c2, s1, s2, zc] =>
    if (q1 == '-') && (q2 == '-') && (tc == 'T') && (c1 == ':') && (c2 == ':') &&
       (zc == 'Z') && isDigitB 10 y1 && isDigitB 10 y2 && isDigitB 10 y3 &&
       isDigitB 10 y4 && isDigitB 10 m1 && isDigitB 10 m2 && isDigitB 10 d1 &&
       isDigitB 10 d2 && isDigitB 10 h1 && isDigitB 10 h2 && isDigitB 10 i1 &&
       isDigitB 10 i2 && isDigitB 10 s1 && isDigitB 10 s2 then
      some ⟨val4 y1 y2 y3 y4, val2 m1 m2, val2 d1 d2, val2 h1 h2, val2 i1 i2,
            val2 s1 s2, 0, true⟩
    else none
  | _ => none

theorem parseIso_isotime (d : DT) (hy : d.year < 10000) (hmo : d.month < 100)
    (hda : d.day < 100) (hh : d.hour < 100) (hmi : d.minute < 100) (hs : d.second < 100) :
    parseIso (isotime d) =
      some ⟨d.year, d.month, d.day, d.hour, d.minute, d.second, 0, true⟩ := by
  have hdig : ∀ n : Nat, isDigitB 10 (digitChar (n % 10)) = true := fun n =>
    isDigitB_digitChar (by omega) (Nat.mod_lt _ (by omega))
  have hcd : ∀ n : Nat, charDigit (digitChar (n % 10)) = n % 10 := fun n =>
    charDigit_digitChar _ (by omega)
  simp only [isotime, pad2, pad4, List.cons_append, List.nil_append, parseIso, hdig,
    beq_self_eq_true, Bool.and_self, Bool.true_and, Bool.and_true, if_true,
    Option.some_inj, DT.mk.injEq, val2, val4, hcd]
  exact ⟨by omega, by omega, by omega, by omega, by omega, by omega, trivial, trivial⟩

/-! ## IP address model.
Modelled from the spec: the IP-address coercion layer of the object model
(the implementation is absent from the source tree). An address is a list of
v4 octets or v6 groups; the canonical string form is dotted decimal (v4) or
colon-separated lowercase hex groups (v6). -/

inductive IPAddr where
  | v4 (octets : List Nat)
  | v6 (groups : List Nat)
deriving DecidableEq

def IPAddr.wf : IPAddr → Bool
  | .v4 l => l.length == 4 && l.all (· < 256)
  | .v6 l => l.length == 8 && l.all (· < 65536)

def ipFormat : IPAddr → List Char
  | .v4 l => sepJoin '.' (l.map (toCharsB 10))
  | .v6 l => sepJoin ':' (l.map (toCharsB 16))

def ipParse (cs : List Char) : Option IPAddr :=
  match parseSeq 10 '.' 4 cs with
  | some l => if l.all (· < 256) then some (.v4 l) else none
  | none =>
    match parseSeq 16 ':' 8 cs with
    | some l => if l.all (· < 65536) then some (.v6 l) else none
    | none => none

theorem sepJoin_mem {sep : Char} : ∀ (gs : List (List Char)) (c : Char),
    c ∈ sepJoin sep gs → c = sep ∨ ∃ g ∈ gs, c ∈ g := by
  intro gs
  induction gs with
  | nil => intro c hc; simp [sepJoin] at hc
  | cons g t ih =>
    intro c hc
    cases t with
    | nil =>
      simp only [sepJoin] at hc
      exact Or.inr ⟨g, List.mem_cons_self g [], hc⟩
    | cons g2 t2 =>
      simp only [sepJoin, List.mem_append, List.mem_cons] at hc
      rcases hc with hg | hs | hrest
      · exact Or.inr ⟨g, List.mem_cons_self _ _, hg⟩
      · exact Or.inl hs
      · rcases ih c hrest with h | ⟨g3, hg3, hc3⟩
        · exact Or.inl h
        · exact Or.inr ⟨g3, List.mem_cons_of_mem g hg3, hc3⟩

theorem ipParse_ipFormat {a : IPAddr} (h : a.wf = true) : ipParse (ipFormat a) = some a := by
  cases a with
  | v4 l =>
    simp only [IPAddr.wf, Bool.and_eq_true, beq_iff_eq] at h
    obtain ⟨hlen, hall⟩ := h
    unfold ipParse ipFormat
    have h4 : parseSeq 10 '.' 4 (sepJoin '.' (l.map (toCharsB 10))) = some l := by
      rw [← hlen]
      exact parseSeq_format (by omega) (by omega) (by decide) l (by
        intro he; rw [he] at hlen; simp at hlen)
    rw [h4]
    simp [hall]
  | v6 l =>
    simp only [IPAddr.wf, Bool.and_eq_true, beq_iff_eq] at h
    obtain ⟨hlen, hall⟩ := h
    unfold ipParse ipFormat
    have hnodot : '.' ∉ sepJoin ':' (l.map (toCharsB 16)) := by
      intro hmem
      rcases sepJoin_mem _ _ hmem with hc | ⟨g, hg, hcg⟩
      · exact absurd hc (by decide)
      · rw [List.mem_map] at hg
        obtain ⟨n, _, rfl⟩ := hg
        exact toCharsB_mem_ne (by omega) (by omega) digitChar_ne_dot '.' hcg rfl
    have h10 : parseSeq 10 '.' 4 (sepJoin ':' (l.map (toCharsB 16))) = none :=
      parseSeq_no_sep 2 hnodot
    have h16 : parseSeq 16 ':' 8 (sepJoin ':' (l.map (toCharsB 16))) = some l := by
      rw [← hlen]
      exact parseSeq_format (by omega) (by omega) (by decide) l (by
        intro he; rw [he] at hlen; simp at hlen)
    rw [h10, h16]
    simp [hall]

/-! ## Value universe and field coercion.
Modelled from the spec: the Field Descriptor & Coercion layer of the object
model (the implementation is absent from the source tree). A raw or
in-memory value is one of the wire-representable shapes; each declared field
type carries a coercion (applied on write / deserialization) and a
serializer (its inverse, applied by `obj_to_primitive`). -/

inductive Val where
  | str (s : String)
  | int (n : Int)
  | bool (b : Bool)
  | dt (d : DT)
  | ip (a : IPAddr)
  | dict (m : List (String × String))
  | kvlist (l : List (String × String))
  | null
deriving DecidableEq

inductive FieldType where
  | str
  | int
  | boolean
  | datetime
  | ip
  | strMap
deriving DecidableEq

/-- Component bounds any calendar datetime value satisfies. -/
def DT.inRange (d : DT) : Bool :=
  decide (d.year < 10000) && decide (d.month < 100) && decide (d.day < 100) &&
  decide (d.hour < 100) && decide (d.minute < 100) && decide (d.second < 100)

/-- UTC-normalize and truncate to whole-second precision. -/
def DT.trunc (d : DT) : DT := { d with microsecond := 0, tzUtc := true }

/-- Modelled from the spec: per-type coercion of a raw value into the
canonical in-memory value; `none` is a `CoercionError`. -/
def coerce : FieldType → Val → Option Val
  | .str, .str s => some (.str s)
  | .str, .null => some .null
  | .int, .int n => some (.int n)
  | .int, .null => some .null
  | .boolean, .int n => some (.bool (n != 0))
  | .boolean, .bool b => some (.bool b)
  | .boolean, .null => some .null
  | .datetime, .str s => (parseIso s.data).map .dt
  | .datetime, .dt d => if d.inRange then some (.dt d.trunc) else none
  | .datetime, .null => some .null
  | .ip, .str s => (ipParse s.data).map .ip
  | .ip, .ip a => if a.wf then some (.ip a) else none
  | .ip, .null => some .null
  | .strMap, .kvlist l => some (.dict l)
  | .strMap, .dict m => some (.dict m)
  | .strMap, .null => some .null
  | _, _ => none

/-- Modelled from the spec: per-type serializer (inverse of coercion) used by
`obj_to_primitive`; datetimes become ISO-8601-with-Z strings, addresses their
string form, everything else is already wire-representable. -/
def serialize : FieldType → Val → Val
  | .datetime, .dt d => .str (String.mk (isotime d))
  | .ip, .ip a => .str (String.mk (ipFormat a))
  | _, v => v

/-- Is `v` a canonical in-memory value of field type `ft`? -/
def canonB : FieldType → Val → Bool
  | .str, .str _ => true
  | .int, .int _ => true
  | .boolean, .bool _ => true
  | .datetime, .dt d => d.inRange && (d.microsecond == 0) && d.tzUtc
  | .ip, .ip a => a.wf
  | .strMap, .dict _ => true
  | _, .null => true
  | _, _ => false

theorem parseSeq_length {b : Nat} {sep : Char} :
    ∀ {k : Nat} {cs : List Char} {l : List Nat},
      parseSeq b sep k cs = some l → l.length = k := by
  intro k
  induction k using Nat.strong_induction_on with
  | _ k ih =>
    intro cs l h
    match k with
    | 0 => simp [parseSeq] at h
    | 1 =>
      simp only [parseSeq] at h
      split at h
      · simp only [Option.some_inj] at h
        subst h
        rfl
      · exact absurd h (by simp)
    | k + 2 =>
      simp only [parseSeq] at h
      split at h
      · split at h
        · rw [Option.map_eq_some'] at h
          obtain ⟨t, ht, rfl⟩ := h
          have := ih (k + 1) (by omega) ht
          simp [this]
        · exact absurd h (by simp)
      · exact absurd h (by simp)

theorem parseIso_bounds {cs : List Char} {d : DT} (h : parseIso cs = some d) :
    d.inRange = true ∧ d.microsecond = 0 ∧ d.tzUtc = true := by
  unfold parseIso at h
  split at h
  · split at h
    · simp only [Option.some_inj] at h
      subst h
      refine ⟨?_, rfl, rfl⟩
      simp only [DT.inRange, Bool.and_eq_true, decide_eq_true_eq, val2, val4]
      omega
    · exact absurd h (by simp)
  · exact absurd h (by simp)

theorem ipParse_wf {cs : List Char} {a : IPAddr} (h : ipParse cs = some a) :
    a.wf = true := by
  unfold ipParse at h
  split at h
  · rename_i l hl
    split at h
    · rename_i hall
      simp only [Option.some_inj] at h
      subst h
      simp only [IPAddr.wf, Bool.and_eq_true, beq_iff_eq]
      exact ⟨by rw [parseSeq_length hl], hall⟩
    · exact absurd h (by simp)
  · split at h
    · rename_i l hl
      split at h
      · rename_i hall
        simp only [Option.some_inj] at h
        subst h
        simp only [IPAddr.wf, Bool.and_eq_true, beq_iff_eq]
        exact ⟨by rw [parseSeq_length hl], hall⟩
      · exact absurd h (by simp)
    · exact absurd h (by simp)

/-- Deserializing the serialized form of a canonical value gives it back. -/
theorem coerce_serialize {ft : FieldType} {v : Val} (h : canonB ft v = true) :
    coerce ft (serialize ft v) = some v := by
  cases ft <;> cases v <;> simp_all [canonB, serialize, coerce]
  · rename_i d
    obtain ⟨⟨hr, hms⟩, htz⟩ := h
    have hb := hr
    simp only [DT.inRange, Bool.and_eq_true, decide_eq_true_eq] at hb
    rw [parseIso_isotime d hb.1.1.1.1.1 hb.1.1.1.1.2 hb.1.1.1.2 hb.1.1.2 hb.1.2 hb.2]
    cases d
    simp_all
  · rename_i a
    exact ipParse_ipFormat h

/-- Coercion only produces canonical values. -/
theorem coerce_canon {ft : FieldType} {v v2 : Val} (h : coerce ft v = some v2) :
    canonB ft v2 = true := by
  cases ft <;> cases v <;>
      simp only [coerce, Option.some_inj, Option.map_eq_some'] at h
  all_goals try exact Option.noConfusion h
  all_goals try (rw [← h]; rfl)
  case datetime.str =>
    obtain ⟨d, hd, rfl⟩ := h
    have hb := parseIso_bounds hd
    simp [canonB, hb.1, hb.2.1, hb.2.2]
  case datetime.dt =>
    split at h
    · rename_i hr
      rw [← Option.some_inj.mp h]
      simp only [canonB, Bool.and_eq_true, beq_iff_eq]
      refine ⟨⟨?_, rfl⟩, rfl⟩
      simpa [DT.inRange, DT.trunc] using hr
    · exact absurd h (by simp)
  case ip.str =>
    obtain ⟨a, ha, rfl⟩ := h
    simpa [canonB] using ipParse_wf ha
  case ip.ip =>
    split at h
    · rename_i hw
      rw [← Option.some_inj.mp h]
      simpa [canonB] using hw
    · exact absurd h (by simp)

/-! ## Field table and entity.
Modelled from the spec: the Entity Base Contract (`nova/objects/base.py` and
`nova/objects/instance.py` are absent from the source tree). Field storage
is an association list from field name to coerced value — absence of a key
means "unset" — plus the change-set of field names mutated since the last
clean state. -/

structure FieldDef where
  name : String
  ftype : FieldType
  opt : Bool
deriving DecidableEq

/-- Modelled from the spec: the Instance field table; names and kinds follow
the test suite's usage, with `metadata` and `system_metadata` the
lazy-capable optional fields (INSTANCE_OPTIONAL_FIELDS). -/
def instanceFields : List FieldDef :=
  [⟨"id", .int, false⟩, ⟨"uuid", .str, false⟩, ⟨"launched_at", .datetime, false⟩,
   ⟨"access_ip_v4", .ip, false⟩, ⟨"access_ip_v6", .ip, false⟩,
   ⟨"host", .str, false⟩, ⟨"user_data", .str, false⟩, ⟨"deleted", .boolean, false⟩,
   ⟨"metadata", .strMap, true⟩, ⟨"system_metadata", .strMap, true⟩]

def findField (f : String) : Option FieldDef :=
  instanceFields.find? (fun d => d.name == f)

def optionalFields : List String := (instanceFields.filter (·.opt)).map (·.name)

/-- Declared type of a field, defaulting for unknown names. -/
def ftypeOf (f : String) : FieldType := ((findField f).map (·.ftype)).getD .str

def lookupA {α : Type} : List (String × α) → String → Option α
  | [], _ => none
  | (k, v) :: t, f => if k = f then some v else lookupA t f

def assocSet {α : Type} : List (String × α) → String → α → List (String × α)
  | [], f, v => [(f, v)]
  | (k, w) :: t, f, v => if k = f then (f, v) :: t else (k, w) :: assocSet t f v

def assocSetAll {α : Type} (m upds : List (String × α)) : List (String × α) :=
  upds.foldl (fun acc p => assocSet acc p.1 p.2) m

structure Entity where
  name : String
  values : List (String × Val)
  changes : List String
deriving DecidableEq

/-- The wire envelope of §3 / §6 of the spec. -/
structure Primitive where
  pname : String
  pnspace : String
  pversion : String
  pdata : List (String × Val)
  pchanges : List String
deriving DecidableEq

/-- Modelled from the spec: serialize every currently-set field, forward the
change-set verbatim. -/
def obj_to_primitive (e : Entity) : Primitive :=
  ⟨e.name, "nova", "1.0",
   e.values.map (fun p => (p.1, serialize (ftypeOf p.1) p.2)), e.changes⟩

/-- Deserialize every `data` entry through its field's coercion; an unknown
field or failed coercion fails the whole construction. -/
def coerceData : List (String × Val) → Option (List (String × Val))
  | [] => some []
  | (f, v) :: t =>
    match findField f with
    | none => none
    | some d =>
      match coerce d.ftype v with
      | none => none
      | some v2 => (coerceData t).map ((f, v2) :: ·)

/-- Modelled from the spec: registry-resolve `(type_name, version)`, construct,
deserialize `data`, and set `changes` to exactly the primitive's list. -/
def obj_from_primitive (p : Primitive) : Option Entity :=
  if p.pname = "Instance" ∧ p.pnspace = "nova" ∧ p.pversion = "1.0" then
    (coerceData p.pdata).map (fun vs => ⟨"Instance", vs, p.pchanges⟩)
  else none

/-- A set entry is a known field holding a canonical value. -/
def entryOk (p : String × Val) : Bool :=
  match findField p.1 with
  | some d => canonB d.ftype p.2
  | none => false

/-- Well-formed entity: correctly typed and every set value canonical. -/
def wfB (e : Entity) : Bool := (e.name == "Instance") && e.values.all entryOk

theorem coerceData_serialized {vs : List (String × Val)} (h : vs.all entryOk = true) :
    coerceData (vs.map (fun p => (p.1, serialize (ftypeOf p.1) p.2))) = some vs := by
  induction vs with
  | nil => rfl
  | cons p t ih =>
    simp only [List.all_cons, Bool.and_eq_true] at h
    obtain ⟨hp, ht⟩ := h
    unfold entryOk at hp
    obtain ⟨f, v⟩ := p
    simp only [List.map_cons, coerceData]
    cases hf : findField f with
    | none => rw [hf] at hp; exact absurd hp (by simp)
    | some d =>
      rw [hf] at hp
      have hp2 : canonB d.ftype v = true := hp
      have hty : ftypeOf f = d.ftype := by simp [ftypeOf, hf]
      rw [hty]
      show (match coerce d.ftype (serialize d.ftype v) with
        | none => none
        | some v2 => Option.map (fun x => (f, v2) :: x)
            (coerceData (List.map (fun p => (p.1, serialize (ftypeOf p.1) p.2)) t))) =
        some ((f, v) :: t)
      rw [coerce_serialize hp2, ih ht]
      rfl

/-- Round trip: `obj_from_primitive (obj_to_primitive e)` reproduces a
well-formed entity exactly. -/
theorem from_to_primitive {e : Entity} (h : wfB e = true) :
    obj_from_primitive (obj_to_primitive e) = some e := by
  obtain ⟨n, vals, chs⟩ := e
  simp only [wfB, Bool.and_eq_true, beq_iff_eq] at h
  obtain ⟨hn, hvals⟩ := h
  subst hn
  simp only [obj_to_primitive, obj_from_primitive]
  rw [if_pos (by simp), coerceData_serialized hvals]
  rfl

/-! ## Persistence bridge.
Modelled from the spec (§6): a keyed raw-record store offering
`load_by_key`, `load_field`, `update_and_fetch` and a bulk list source, with
call counters and an argument log so bridge traffic is observable.
`sideEffect` models fields the backing store changes on update as a side
effect (e.g. a derived host field). -/

structure Store where
  recs : List (String × List (String × Val))
  filterRecs : List (List (String × Val))
  sideEffect : List (String × Val)
  loadKeyCalls : Nat
  loadFieldCalls : Nat
  updateCalls : Nat
  listCalls : Nat
  lastUpdateArgs : Option (String × List (String × Val))
deriving DecidableEq

def load_by_key (st : Store) (key : String) (_fields : List String) :
    Option (List (String × Val)) × Store :=
  (lookupA st.recs key, { st with loadKeyCalls := st.loadKeyCalls + 1 })

def load_field (st : Store) (key f : String) : Option Val × Store :=
  ((lookupA st.recs key).bind (fun raw => lookupA raw f),
   { st with loadFieldCalls := st.loadFieldCalls + 1 })

def update_and_fetch (st : Store) (key : String) (upds : List (String × Val)) :
    Option (List (String × Val) × List (String × Val)) × Store :=
  match lookupA st.recs key with
  | none => (none, { st with updateCalls := st.updateCalls + 1,
                             lastUpdateArgs := some (key, upds) })
  | some pre =>
    let post := assocSetAll (assocSetAll pre upds) st.sideEffect
    (some (pre, post),
     { st with recs := assocSet st.recs key post,
               updateCalls := st.updateCalls + 1,
               lastUpdateArgs := some (key, upds) })

/-! ## Entity operations (modelled from the spec, §4.2) -/

/-- Populate base fields present in the raw record plus requested optional
fields whose raw data is present; skipped fields stay unset; a failed
coercion fails the construction; the result is clean (`changes = []`). -/
def constructVals : List FieldDef → List (String × Val) → List String →
    Option (List (String × Val))
  | [], _, _ => some []
  | d :: ds, raw, exp =>
    if d.opt && !(exp.contains d.name) then constructVals ds raw exp
    else
      match lookupA raw d.name with
      | none => constructVals ds raw exp
      | some rv =>
        match coerce d.ftype rv with
        | none => none
        | some v => (constructVals ds raw exp).map ((d.name, v) :: ·)

def construct_from_record (raw : List (String × Val)) (exp : List String) :
    Option Entity :=
  (constructVals instanceFields raw exp).map (fun vs => ⟨"Instance", vs, []⟩)

/-- Keyed load through the persistence bridge (`Instance.get_by_uuid`). -/
def get_by_uuid (st : Store) (key : String) (exp : List String) :
    Option Entity × Store :=
  let p := load_by_key st key exp
  match p.1 with
  | none => (none, p.2)
  | some raw => (construct_from_record raw exp, p.2)

/-- Optional fields currently set on the entity. -/
def optSet (e : Entity) : List String :=
  optionalFields.filter (fun f => (lookupA e.values f).isSome)

/-- Attribute read: a set field returns its cached value with no bridge
call; an unset lazy-capable field triggers one single-field load, caches and
returns it; an unset non-lazy field fails fast. -/
def getAttr (e : Entity) (st : Store) (f : String) :
    Option (Val × Entity) × Store :=
  match lookupA e.values f with
  | some v => (some (v, e), st)
  | none =>
    if optionalFields.contains f then
      match lookupA e.values "uuid" with
      | some (.str u) =>
        let p := load_field st u f
        match p.1 with
        | none => (none, p.2)
        | some raw =>
          match coerce (ftypeOf f) raw with
          | none => (none, p.2)
          | some v => (some (v, { e with values := assocSet e.values f v }), p.2)
      | _ => (none, st)
    else (none, st)

/-- Attribute mutation: coerce, store, and record the field in `changes`
even if the value is unchanged. -/
def setAttr (e : Entity) (f : String) (v : Val) : Option Entity :=
  match findField f with
  | none => none
  | some d =>
    (coerce d.ftype v).map (fun v2 =>
      { e with values := assocSet e.values f v2,
               changes := if e.changes.contains f then e.changes
                          else e.changes ++ [f] })

/-- `save`: no-op on an empty change-set; otherwise send exactly the changed
field/value pairs to `update_and_fetch` and rebuild from the post-update
record restricted to the fields already expected, clearing `changes`. -/
def save (e : Entity) (st : Store) : Option Entity × Store :=
  if e.changes = [] then (some e, st)
  else
    match lookupA e.values "uuid" with
    | some (.str u) =>
      let upds := e.changes.map (fun f => (f, (lookupA e.values f).getD .null))
      let p := update_and_fetch st u upds
      match p.1 with
      | none => (none, p.2)
      | some pp => (construct_from_record pp.2 (optSet e), p.2)
    | _ => (none, st)

/-- `refresh`: reload the full base record (plus already-set optional
fields) and rebuild, clearing `changes`. -/
def refresh (e : Entity) (st : Store) : Option Entity × Store :=
  match lookupA e.values "uuid" with
  | some (.str u) =>
    let p := load_by_key st u (optSet e)
    match p.1 with
    | none => (none, p.2)
    | some raw => (construct_from_record raw (optSet e), p.2)
  | _ => (none, st)

/-! ## Entity lists (modelled from the spec, §4.3) -/

structure EntityList where
  objects : List Entity
  listChanges : List String
deriving DecidableEq

def constructList : List (List (String × Val)) → List String →
    Option (List Entity)
  | [], _ => some []
  | raw :: t, exp =>
    match construct_from_record raw exp with
    | none => none
    | some e => (constructList t exp).map (e :: ·)

/-- One entity per raw record, in store-given order. -/
def make_list (raws : List (List (String × Val))) (exp : List String) :
    Option EntityList :=
  (constructList raws exp).map (fun os => ⟨os, []⟩)

/-- Bulk load through the persistence bridge. -/
def list_by_filter (st : Store) (exp : List String) :
    Option EntityList × Store :=
  (make_list st.filterRecs exp, { st with listCalls := st.listCalls + 1 })

/-- Aggregate change inspection: the list's own membership changes plus the
union of each element's change-set. -/
def list_what_changed (L : EntityList) : List String :=
  L.listChanges ++ L.objects.foldr (fun o acc => o.changes ++ acc) []

structure LPrimitive where
  lname : String
  lnspace : String
  lversion : String
  lobjects : List Primitive
  lchanges : List String
deriving DecidableEq

def list_to_primitive (L : EntityList) : LPrimitive :=
  ⟨"InstanceList", "nova", "1.0", L.objects.map obj_to_primitive, L.listChanges⟩

def fromPrims : List Primitive → Option (List Entity)
  | [] => some []
  | p :: t =>
    match obj_from_primitive p with
    | none => none
    | some e => (fromPrims t).map (e :: ·)

def list_from_primitive (p : LPrimitive) : Option EntityList :=
  if p.lname = "InstanceList" ∧ p.lnspace = "nova" ∧ p.lversion = "1.0" then
    (fromPrims p.lobjects).map (fun os => ⟨os, p.lchanges⟩)
  else none

/-! ## Dispatch-equivalence harness (spec §5): the five entity operations,
executable either in-process or via serialize → remote execution against the
same backing store → deserialize. -/

inductive Op where
  | opGet (key : String) (exp : List String)
  | opGetAttr (f : String)
  | opSave
  | opRefresh
  | opListByFilter (exp : List String)
deriving DecidableEq

def exec (op : Op) (e : Entity) (st : Store) :
    Option (Entity ⊕ EntityList) × Store :=
  match op with
  | .opGet key exp =>
    let p := get_by_uuid st key exp
    (p.1.map Sum.inl, p.2)
  | .opGetAttr f =>
    let p := getAttr e st f
    (p.1.map (fun q => Sum.inl q.2), p.2)
  | .opSave =>
    let p := save e st
    (p.1.map Sum.inl, p.2)
  | .opRefresh =>
    let p := refresh e st
    (p.1.map Sum.inl, p.2)
  | .opListByFilter exp =>
    let p := list_by_filter st exp
    (p.1.map Sum.inr, p.2)

def toPrimAny : Entity ⊕ EntityList → Primitive ⊕ LPrimitive
  | .inl e => .inl (obj_to_primitive e)
  | .inr L => .inr (list_to_primitive L)

def fromPrimAny : Primitive ⊕ LPrimitive → Option (Entity ⊕ EntityList)
  | .inl p => (obj_from_primitive p).map Sum.inl
  | .inr p => (list_from_primitive p).map Sum.inr

/-- Serialize the entity, let the remote end deserialize it, run the
operation against its backing store, and ship the result back through the
wire primitive. -/
def remoteExec (op : Op) (e : Entity) (st : Store) :
    Option (Entity ⊕ EntityList) × Store :=
  match obj_from_primitive (obj_to_primitive e) with
  | none => (none, st)
  | some e2 =>
    let p := exec op e2 st
    (p.1.bind (fun x => fromPrimAny (toPrimAny x)), p.2)

def wfAnyB : Entity ⊕ EntityList → Bool
  | .inl e => wfB e
  | .inr L => L.objects.all wfB

/-! ## Well-formedness preservation -/

theorem instanceFields_find : ∀ d ∈ instanceFields, findField d.name = some d := by
  decide

theorem constructVals_ok : ∀ {ds : List FieldDef} {raw : List (String × Val)}
    {exp : List String} {vs : List (String × Val)},
    (∀ d ∈ ds, findField d.name = some d) →
    constructVals ds raw exp = some vs → vs.all entryOk = true := by
  intro ds
  induction ds with
  | nil =>
    intro raw exp vs _ h
    simp only [constructVals, Option.some_inj] at h
    subst h
    rfl
  | cons d t ih =>
    intro raw exp vs hds h
    have hdt : ∀ d2 ∈ t, findField d2.name = some d2 :=
      fun d2 hd2 => hds d2 (List.mem_cons_of_mem d hd2)
    simp only [constructVals] at h
    split at h
    · exact ih hdt h
    · split at h
      · exact ih hdt h
      · split at h
        · exact absurd h (by simp)
        · rename_i rv _ v hv
          rw [Option.map_eq_some'] at h
          obtain ⟨t2, ht2, rfl⟩ := h
          simp only [List.all_cons, Bool.and_eq_true]
          refine ⟨?_, ih hdt ht2⟩
          simp only [entryOk, hds d (List.mem_cons_self d t)]
          exact coerce_canon hv

theorem construct_wf {raw : List (String × Val)} {exp : List String} {e : Entity}
    (h : construct_from_record raw exp = some e) : wfB e = true := by
  unfold construct_from_record at h
  rw [Option.map_eq_some'] at h
  obtain ⟨vs, hvs, rfl⟩ := h
  simp only [wfB, beq_self_eq_true, Bool.true_and]
  exact constructVals_ok instanceFields_find hvs

theorem construct_changes {raw : List (String × Val)} {exp : List String}
    {e : Entity} (h : construct_from_record raw exp = some e) : e.changes = [] := by
  unfold construct_from_record at h
  rw [Option.map_eq_some'] at h
  obtain ⟨vs, _, rfl⟩ := h
  rfl

theorem all_assocSet {p : String × Val → Bool} {vals : List (String × Val)}
    {f : String} {v : Val} (hv : p (f, v) = true) (h : vals.all p = true) :
    (assocSet vals f v).all p = true := by
  induction vals with
  | nil => simp [assocSet, hv]
  | cons q t ih =>
    obtain ⟨k, w⟩ := q
    simp only [List.all_cons, Bool.and_eq_true] at h
    obtain ⟨hq, ht⟩ := h
    by_cases hk : k = f
    · simp [assocSet, hk, hv, ht]
    · simp [assocSet, hk, hq, ih ht]

theorem optionalFields_found {f : String} (h : optionalFields.contains f = true) :
    ∃ d, findField f = some d ∧ ftypeOf f = d.ftype := by
  have : f = "metadata" ∨ f = "system_metadata" := by
    simpa [optionalFields, instanceFields, List.contains, or_comm] using h
  rcases this with rfl | rfl
  · exact ⟨⟨"metadata", .strMap, true⟩, by decide, by decide⟩
  · exact ⟨⟨"system_metadata", .strMap, true⟩, by decide, by decide⟩

theorem get_wf {st : Store} {key : String} {exp : List String} {e : Entity}
    {st2 : Store} (h : get_by_uuid st key exp = (some e, st2)) : wfB e = true := by
  unfold get_by_uuid at h
  simp only [] at h
  split at h
  · simp at h
  · rw [Prod.mk.injEq] at h
    exact construct_wf h.1

theorem getAttr_wf {e : Entity} {st : Store} {f : String} {v : Val} {e2 : Entity}
    {st2 : Store} (hw : wfB e = true) (h : getAttr e st f = (some (v, e2), st2)) :
    wfB e2 = true := by
  unfold getAttr at h
  simp only [] at h
  split at h
  · rw [Prod.mk.injEq, Option.some_inj, Prod.mk.injEq] at h
    rw [← h.1.2]
    exact hw
  · split at h
    · rename_i hopt
      split at h
      · split at h
        · simp at h
        · split at h
          · simp at h
          · rename_i rv _ v2 hv2
            rw [Prod.mk.injEq, Option.some_inj, Prod.mk.injEq] at h
            rw [← h.1.2]
            simp only [wfB, Bool.and_eq_true, beq_iff_eq] at hw ⊢
            obtain ⟨d, hd, hty⟩ := optionalFields_found hopt
            refine ⟨hw.1, all_assocSet ?_ hw.2⟩
            simp only [entryOk, hd]
            rw [hty] at hv2
            exact coerce_canon hv2
      · simp at h
    · simp at h

theorem save_wf {e : Entity} {st : Store} {e2 : Entity} {st2 : Store}
    (hw : wfB e = true) (h : save e st = (some e2, st2)) : wfB e2 = true := by
  unfold save at h
  simp only [] at h
  split at h
  · rw [Prod.mk.injEq, Option.some_inj] at h
    rw [← h.1]
    exact hw
  · split at h
    · split at h
      · simp at h
      · rw [Prod.mk.injEq] at h
        exact construct_wf h.1
    · simp at h

theorem refresh_wf {e : Entity} {st : Store} {e2 : Entity} {st2 : Store}
    (_hw : wfB e = true) (h : refresh e st = (some e2, st2)) : wfB e2 = true := by
  unfold refresh at h
  simp only [] at h
  split at h
  · split at h
    · simp at h
    · rw [Prod.mk.injEq] at h
      exact construct_wf h.1
  · simp at h

theorem constructList_wf : ∀ {raws : List (List (String × Val))}
    {exp : List String} {os : List Entity},
    constructList raws exp = some os → os.all wfB = true := by
  intro raws
  induction raws with
  | nil =>
    intro exp os h
    simp only [constructList, Option.some_inj] at h
    subst h
    rfl
  | cons raw t ih =>
    intro exp os h
    simp only [constructList] at h
    split at h
    · simp at h
    · rename_i e he
      rw [Option.map_eq_some'] at h
      obtain ⟨t2, ht2, rfl⟩ := h
      simp only [List.all_cons, Bool.and_eq_true]
      exact ⟨construct_wf he, ih ht2⟩

theorem exec_wf {op : Op} {e : Entity} {st : Store} {x : Entity ⊕ EntityList}
    {st2 : Store} (hw : wfB e = true) (h : exec op e st = (some x, st2)) :
    wfAnyB x = true := by
  cases op with
  | opGet key exp =>
    simp only [exec] at h
    rw [Prod.mk.injEq] at h
    cases hg : (get_by_uuid st key exp).1 with
    | none => rw [hg] at h; simp at h
    | some e2 =>
      rw [hg] at h
      simp only [Option.map_some', Option.some_inj] at h
      rw [← h.1]
      have hge : get_by_uuid st key exp = (some e2, (get_by_uuid st key exp).2) := by
        rw [← hg]
      exact get_wf hge
  | opGetAttr f =>
    simp only [exec] at h
    rw [Prod.mk.injEq] at h
    cases hg : (getAttr e st f).1 with
    | none => rw [hg] at h; simp at h
    | some q =>
      rw [hg] at h
      simp only [Option.map_some', Option.some_inj] at h
      rw [← h.1]
      obtain ⟨qv, qe⟩ := q
      have hge : getAttr e st f = (some (qv, qe), (getAttr e st f).2) := by
        rw [← hg]
      exact getAttr_wf hw hge
  | opSave =>
    simp only [exec] at h
    rw [Prod.mk.injEq] at h
    cases hg : (save e st).1 with
    | none => rw [hg] at h; simp at h
    | some e2 =>
      rw [hg] at h
      simp only [Option.map_some', Option.some_inj] at h
      rw [← h.1]
      have hge : save e st = (some e2, (save e st).2) := by
        rw [← hg]
      exact save_wf hw hge
  | opRefresh =>
    simp only [exec] at h
    rw [Prod.mk.injEq] at h
    cases hg : (refresh e st).1 with
    | none => rw [hg] at h; simp at h
    | some e2 =>
      rw [hg] at h
      simp only [Option.map_some', Option.some_inj] at h
      rw [← h.1]
      have hge : refresh e st = (some e2, (refresh e st).2) := by
        rw [← hg]
      exact refresh_wf hw hge
  | opListByFilter exp =>
    simp only [exec, list_by_filter] at h
    rw [Prod.mk.injEq] at h
    cases hg : make_list st.filterRecs exp with
    | none => rw [hg] at h; simp at h
    | some L =>
      rw [hg] at h
      simp only [Option.map_some', Option.some_inj] at h
      rw [← h.1]
      unfold make_list at hg
      rw [Option.map_eq_some'] at hg
      obtain ⟨os, hos, rfl⟩ := hg
      simpa [wfAnyB] using constructList_wf hos

theorem fromPrims_map {os : List Entity} (h : os.all wfB = true) :
    fromPrims (os.map obj_to_primitive) = some os := by
  induction os with
  | nil => rfl
  | cons o t ih =>
    simp only [List.all_cons, Bool.and_eq_true] at h
    simp only [List.map_cons, fromPrims, from_to_primitive h.1, ih h.2]
    rfl

theorem list_round_trip {L : EntityList} (h : L.objects.all wfB = true) :
    list_from_primitive (list_to_primitive L) = some L := by
  obtain ⟨os, chs⟩ := L
  simp only [list_to_primitive, list_from_primitive]
  rw [if_pos (by simp)]
  simp only at h
  rw [fromPrims_map h]
  rfl

theorem round_trip_any {x : Entity ⊕ EntityList} (h : wfAnyB x = true) :
    fromPrimAny (toPrimAny x) = some x := by
  cases x with
  | inl e => simp [toPrimAny, fromPrimAny, from_to_primitive h]
  | inr L =>
    simp only [wfAnyB] at h
    simp [toPrimAny, fromPrimAny, list_round_trip h]

/-- In-process execution and serialize/remote-execute/deserialize agree on
well-formed entities: same result, same store. -/
theorem remote_eq_local {op : Op} {e : Entity} {st : Store} (hw : wfB e = true) :
    remoteExec op e st = exec op e st := by
  unfold remoteExec
  rw [from_to_primitive hw]
  show ((exec op e st).1.bind (fun x => fromPrimAny (toPrimAny x)),
        (exec op e st).2) = exec op e st
  cases hx : exec op e st with
  | mk r st2 =>
    cases r with
    | none => simp
    | some x =>
      have hwf := exec_wf hw hx
      simp [round_trip_any hwf]

/-! ## Lookup lemmas for constructed value lists -/

theorem lookupA_assocSet_self {α : Type} (m : List (String × α)) (f : String) (v : α) :
    lookupA (assocSet m f v) f = some v := by
  induction m with
  | nil => simp [assocSet, lookupA]
  | cons q t ih =>
    obtain ⟨k, w⟩ := q
    by_cases hk : k = f
    · simp [assocSet, hk, lookupA]
    · simp [assocSet, hk, lookupA, ih]

theorem constructVals_lookup_opt {f : String} : ∀ {ds : List FieldDef}
    {raw : List (String × Val)} {vs : List (String × Val)},
    constructVals ds raw [] = some vs →
    (∀ d ∈ ds, d.name = f → d.opt = true) → lookupA vs f = none := by
  intro ds
  induction ds with
  | nil =>
    intro raw vs h _
    simp only [constructVals, Option.some_inj] at h
    subst h
    rfl
  | cons d t ih =>
    intro raw vs h hopt
    have hoptt : ∀ d2 ∈ t, d2.name = f → d2.opt = true :=
      fun d2 hd2 => hopt d2 (List.mem_cons_of_mem d hd2)
    simp only [constructVals] at h
    split at h
    · exact ih h hoptt
    · rename_i hcond
      have hdopt : d.opt = false := by
        simpa [List.contains] using hcond
      split at h
      · exact ih h hoptt
      · split at h
        · exact absurd h (by simp)
        · rw [Option.map_eq_some'] at h
          obtain ⟨t2, ht2, rfl⟩ := h
          have hnf : d.name ≠ f := by
            intro he
            rw [hopt d (List.mem_cons_self d t) he] at hdopt
            simp at hdopt
          simp only [lookupA, if_neg hnf]
          exact ih ht2 hoptt

theorem constructVals_lookup_hit {f : String} {dd : FieldDef} {rv : Val} :
    ∀ {ds : List FieldDef} {raw : List (String × Val)} {exp : List String}
      {vs : List (String × Val)},
    constructVals ds raw exp = some vs → dd ∈ ds →
    (∀ d2 ∈ ds, d2.name = f → d2 = dd) → dd.name = f →
    (dd.opt = false ∨ exp.contains f = true) →
    lookupA raw f = some rv →
    lookupA vs f = coerce dd.ftype rv := by
  intro ds
  induction ds with
  | nil => intro raw exp vs _ hmem; exact absurd hmem (by simp)
  | cons d t ih =>
    intro raw exp vs h hmem huniq hname hbase hraw
    have huniqt : ∀ d2 ∈ t, d2.name = f → d2 = dd :=
      fun d2 hd2 => huniq d2 (List.mem_cons_of_mem d hd2)
    by_cases hn : d.name = f
    · have hd : d = dd := huniq d (List.mem_cons_self d t) hn
      subst hd
      simp only [constructVals] at h
      split at h
      · rename_i hcond
        exfalso
        rcases hbase with hb | hb
        · rw [hb] at hcond
          simp at hcond
        · rw [hn, hb] at hcond
          simp at hcond
      · rw [hn, hraw] at h
        split at h
        · rename_i heq
          exact Option.noConfusion heq
        · rename_i v2 hv2
          obtain rfl : rv = v2 := Option.some_inj.mp hv2
          split at h
          · exact absurd h (by simp)
          · rename_i v3 hv3
            rw [Option.map_eq_some'] at h
            obtain ⟨t2, _, rfl⟩ := h
            simp [lookupA, hv3]
    · have hdd : dd ∈ t := by
        rcases List.mem_cons.mp hmem with he | ht2
        · exact absurd (he ▸ hname) hn
        · exact ht2
      simp only [constructVals] at h
      split at h
      · exact ih h hdd huniqt hname hbase hraw
      · split at h
        · exact ih h hdd huniqt hname hbase hraw
        · split at h
          · exact absurd h (by simp)
          · rw [Option.map_eq_some'] at h
            obtain ⟨t2, ht2, rfl⟩ := h
            simp only [lookupA, if_neg hn]
            exact ih ht2 hdd huniqt hname hbase hraw

theorem instanceFields_names_unique :
    ∀ d2 ∈ instanceFields, ∀ d3 ∈ instanceFields, d2.name = d3.name → d2 = d3 := by
  decide

theorem findField_unique {g : String} {dg d2 : FieldDef} (hg : findField g = some dg)
    (h2 : d2 ∈ instanceFields) (hn : d2.name = g) : d2 = dg := by
  have hmem : dg ∈ instanceFields := List.mem_of_find?_eq_some hg
  have hpg : dg.name = g := by
    have := List.find?_some hg
    simpa using this
  exact instanceFields_names_unique d2 h2 dg hmem (by rw [hn, hpg])

theorem construct_name {raw : List (String × Val)} {exp : List String} {e : Entity}
    (h : construct_from_record raw exp = some e) : e.name = "Instance" := by
  unfold construct_from_record at h
  rw [Option.map_eq_some'] at h
  obtain ⟨vs, _, rfl⟩ := h
  rfl

/-- Field lookup on a constructed entity: a known base field present in the
raw record reads back as its coercion. -/
theorem construct_lookup {raw : List (String × Val)} {exp : List String}
    {e : Entity} {g : String} {dg : FieldDef} {rv : Val}
    (h : construct_from_record raw exp = some e)
    (hg : findField g = some dg) (hbase : dg.opt = false)
    (hrv : lookupA raw g = some rv) :
    lookupA e.values g = coerce dg.ftype rv := by
  unfold construct_from_record at h
  rw [Option.map_eq_some'] at h
  obtain ⟨vs, hvs, rfl⟩ := h
  have hpg : dg.name = g := by
    have := List.find?_some hg
    simpa using this
  exact constructVals_lookup_hit hvs (List.mem_of_find?_eq_some hg)
    (fun d2 hd2 hn => findField_unique hg hd2 hn) hpg (Or.inl hbase) hrv

/-! ## List construction lemmas -/

theorem constructList_length : ∀ {raws : List (List (String × Val))}
    {exp : List String} {os : List Entity},
    constructList raws exp = some os → os.length = raws.length := by
  intro raws
  induction raws with
  | nil =>
    intro exp os h
    simp only [constructList, Option.some_inj] at h
    subst h
    rfl
  | cons raw t ih =>
    intro exp os h
    simp only [constructList] at h
    split at h
    · simp at h
    · rw [Option.map_eq_some'] at h
      obtain ⟨t2, ht2, rfl⟩ := h
      simp [ih ht2]

theorem constructList_get : ∀ {raws : List (List (String × Val))}
    {exp : List String} {os : List Entity},
    constructList raws exp = some os →
    ∀ i (h1 : i < raws.length) (h2 : i < os.length),
      construct_from_record (raws.get ⟨i, h1⟩) exp = some (os.get ⟨i, h2⟩) := by
  intro raws
  induction raws with
  | nil => intro exp os _ i h1; exact absurd h1 (by simp)
  | cons raw t ih =>
    intro exp os h i h1 h2
    simp only [constructList] at h
    split at h
    · simp at h
    · rename_i e he
      rw [Option.map_eq_some'] at h
      obtain ⟨t2, ht2, rfl⟩ := h
      cases i with
      | zero => simpa using he
      | succ j =>
        simp only [List.length_cons, Nat.succ_lt_succ_iff] at h1 h2
        simpa using ih ht2 j h1 h2

theorem constructList_mem : ∀ {raws : List (List (String × Val))}
    {exp : List String} {os : List Entity},
    constructList raws exp = some os →
    ∀ o ∈ os, ∃ raw, construct_from_record raw exp = some o := by
  intro raws
  induction raws with
  | nil =>
    intro exp os h o ho
    simp only [constructList, Option.some_inj] at h
    subst h
    exact absurd ho (by simp)
  | cons raw t ih =>
    intro exp os h o ho
    simp only [constructList] at h
    split at h
    · simp at h
    · rename_i e he
      rw [Option.map_eq_some'] at h
      obtain ⟨t2, ht2, rfl⟩ := h
      rcases List.mem_cons.mp ho with rfl | hmem
      · exact ⟨raw, he⟩
      · exact ih ht2 o hmem

/-! ## Interface-attachment controller, embedded from
`nova/api/openstack/compute/contrib/attach_interfaces.py`. -/

structure FixedIp where
  ipAddress : Option String
deriving DecidableEq

structure Attachment where
  netId : Option String
  portId : Option String
  fixedIps : List FixedIp
deriving DecidableEq

/-- Python truthiness of an optional string (None and the empty string are
falsy). -/
def truthy : Option String → Bool
  | none => false
  | some s => s != ""

/-- `attachment['fixed_ips'][0]['ip_address']` under the blanket `except`. -/
def reqIpOf (a : Attachment) : Option String :=
  match a.fixedIps with
  | f :: _ => f.ipAddress
  | [] => none

inductive AttachOutcome where
  | attachNotFound
  | attachNotImpl
  | attachFailed
  | attached (vifUuid : String)
deriving DecidableEq

/-- The compute/network collaborators as the controller observes them. -/
structure World where
  instanceFound : Bool
  attachOutcome : AttachOutcome
  portDevice : List (String × String)
deriving DecidableEq

inductive CreateResult where
  | badRequest
  | notFound
  | notImplemented
  | internalError
  | ok (portId : String)
deriving DecidableEq

/-- A create call's HTTP outcome plus how many compute-API and network-API
calls were made along the way. -/
structure CreateTrace where
  response : CreateResult
  computeApiCalls : Nat
  networkApiCalls : Nat
deriving DecidableEq

/-- `show`: `compute_api.get`, `network_api.show_port`, device check. -/
def showStep (w : World) (serverId portId : String) (cc nc : Nat) : CreateTrace :=
  if !w.instanceFound then ⟨.notFound, cc + 1, nc⟩
  else
    match lookupA w.portDevice portId with
    | none => ⟨.notFound, cc + 1, nc + 1⟩
    | some dev =>
      if dev != serverId then ⟨.notFound, cc + 1, nc + 1⟩
      else ⟨.ok portId, cc + 1, nc + 1⟩

/-- `InterfaceAttachmentController.create`: extract `net_id`, `port_id` and
the first fixed IP from the body, reject conflicting/incomplete combinations
with 400 before any compute or network call, then attach and return the
`show` view of the new port. -/
def create (body : Option Attachment) (serverId : String) (w : World) :
    CreateTrace :=
  let networkId := body.bind Attachment.netId
  let portId := body.bind Attachment.portId
  let reqIp := body.bind reqIpOf
  if truthy networkId && truthy portId then ⟨.badRequest, 0, 0⟩
  else if truthy reqIp && !truthy networkId then ⟨.badRequest, 0, 0⟩
  else if !w.instanceFound then ⟨.notFound, 1, 0⟩
  else
    match w.attachOutcome with
    | .attachNotFound => ⟨.notFound, 2, 0⟩
    | .attachNotImpl => ⟨.notImplemented, 2, 0⟩
    | .attachFailed => ⟨.internalError, 2, 0⟩
    | .attached vif => showStep w serverId vif 2 0

theorem optional_names_opt {f : String} (h : optionalFields.contains f = true) :
    ∀ d ∈ instanceFields, d.name = f → d.opt = true := by
  have : f = "metadata" ∨ f = "system_metadata" := by
    simpa [optionalFields, instanceFields, List.contains, or_comm] using h
  rcases this with rfl | rfl <;> decide

theorem foldr_changes_nil {os : List Entity} (h : ∀ o ∈ os, o.changes = []) :
    os.foldr (fun o acc => o.changes ++ acc) [] = ([] : List String) := by
  induction os with
  | nil => rfl
  | cons o t ih =>
    simp only [List.foldr_cons]
    rw [h o (List.mem_cons_self o t),
      ih (fun o2 ho2 => h o2 (List.mem_cons_of_mem o ho2))]
    rfl

/-! ## Claims -/

/-- Claim C1: for every (well-formed) entity `e`,
`obj_from_primitive (obj_to_primitive e)` yields an entity whose set of
currently-set fields, their values, and change-set are exactly those of `e`
(the whole entity is reproduced). -/
theorem claim_C1 (e : Entity) (h : wfB e = true) :
    obj_from_primitive (obj_to_primitive e) = some e :=
  from_to_primitive h

def entC1 : Entity :=
  ⟨"Instance",
   [("uuid", .str "fake-uuid"),
    ("launched_at", .dt ⟨1955, 11, 5, 0, 0, 0, 0, true⟩),
    ("access_ip_v4", .ip (.v4 [1, 2, 3, 4])),
    ("access_ip_v6", .ip (.v6 [0, 0, 0, 0, 0, 0, 0, 1]))],
   ["uuid", "launched_at"]⟩

theorem claim_C1_witness :
    wfB entC1 = true ∧ obj_from_primitive (obj_to_primitive entC1) = some entC1 :=
  ⟨by decide, claim_C1 entC1 (by decide)⟩

/-- Claim C2: every entity operation (keyed get, lazy field access, save,
refresh, bulk list load) performed in-process equals the same operation
performed via serialize → remote execution against the same backing store →
deserialize, field-for-field and change-for-change (the full results and the
resulting stores coincide). -/
theorem claim_C2 (op : Op) (e : Entity) (st : Store) (h : wfB e = true) :
    remoteExec op e st = exec op e st :=
  remote_eq_local h

def entC2 : Entity := ⟨"Instance", [("uuid", .str "u2"), ("host", .str "h")], []⟩

def stC2 : Store :=
  ⟨[("u2", [("uuid", .str "u2"), ("host", .str "h")])], [], [], 0, 0, 0, 0, none⟩

theorem claim_C2_witness :
    wfB entC2 = true ∧
      remoteExec (.opGet "u2" []) entC2 stC2 = exec (.opGet "u2" []) entC2 stC2 :=
  ⟨by decide, claim_C2 (.opGet "u2" []) entC2 stC2 (by decide)⟩

/-- Claim C5: serializing a datetime value yields the ISO-8601-with-Z
string, and deserializing it back yields the UTC-tagged, whole-second
truncation of the original value. -/
theorem claim_C5 (d : DT) (h : d.inRange = true) :
    serialize .datetime (.dt d) = .str (String.mk (isotime d)) ∧
    coerce .datetime (serialize .datetime (.dt d)) = some (.dt d.trunc) ∧
    d.trunc.tzUtc = true ∧ d.trunc.microsecond = 0 := by
  refine ⟨rfl, ?_, rfl, rfl⟩
  simp only [serialize, coerce]
  simp only [DT.inRange, Bool.and_eq_true, decide_eq_true_eq] at h
  rw [parseIso_isotime d h.1.1.1.1.1 h.1.1.1.1.2 h.1.1.1.2 h.1.1.2 h.1.2 h.2]
  rfl

theorem claim_C5_witness :
    (⟨1955, 11, 5, 0, 0, 0, 0, true⟩ : DT).inRange = true ∧
    (serialize .datetime (.dt ⟨1955, 11, 5, 0, 0, 0, 0, true⟩) =
        .str (String.mk (isotime ⟨1955, 11, 5, 0, 0, 0, 0, true⟩)) ∧
      coerce .datetime (serialize .datetime (.dt ⟨1955, 11, 5, 0, 0, 0, 0, true⟩)) =
        some (.dt (⟨1955, 11, 5, 0, 0, 0, 0, true⟩ : DT).trunc) ∧
      (⟨1955, 11, 5, 0, 0, 0, 0, true⟩ : DT).trunc.tzUtc = true ∧
      (⟨1955, 11, 5, 0, 0, 0, 0, true⟩ : DT).trunc.microsecond = 0) :=
  ⟨by decide, claim_C5 ⟨1955, 11, 5, 0, 0, 0, 0, true⟩ (by decide)⟩

/-- Claim C6: an entity obtained via a keyed load with no optional fields
requested has every lazy-capable optional field genuinely absent from its
value store until first access. -/
theorem claim_C6 (st : Store) (key : String) (e : Entity) (st1 : Store) (f : String)
    (hget : get_by_uuid st key [] = (some e, st1))
    (hopt : optionalFields.contains f = true) :
    lookupA e.values f = none := by
  unfold get_by_uuid at hget
  simp only [] at hget
  split at hget
  · simp at hget
  · rw [Prod.mk.injEq] at hget
    have hc := hget.1
    unfold construct_from_record at hc
    rw [Option.map_eq_some'] at hc
    obtain ⟨vs, hvs, rfl⟩ := hc
    exact constructVals_lookup_opt hvs (optional_names_opt hopt)

def stC6 : Store :=
  ⟨[("uuid", [("uuid", .str "uuid"), ("host", .str "h"),
    ("system_metadata", .kvlist [("foo", "bar")])])], [], [], 0, 0, 0, 0, none⟩

def entC6 : Entity := ⟨"Instance", [("uuid", .str "uuid"), ("host", .str "h")], []⟩

theorem claim_C6_witness :
    get_by_uuid stC6 "uuid" [] =
      (some entC6, { stC6 with loadKeyCalls := 1 }) ∧
    optionalFields.contains "system_metadata" = true ∧
    lookupA entC6.values "system_metadata" = none :=
  ⟨by decide, by decide,
   claim_C6 stC6 "uuid" entC6 { stC6 with loadKeyCalls := 1 } "system_metadata"
     (by decide) (by decide)⟩

/-- Claim C7: `save` on an entity with an empty change-set performs no
persistence-bridge call, raises no error, and leaves entity and store
unchanged. -/
theorem claim_C7 (e : Entity) (st : Store) (h : e.changes = []) :
    save e st = (some e, st) := by
  unfold save
  rw [if_pos h]

theorem claim_C7_witness :
    entC2.changes = [] ∧ save entC2 stC2 = (some entC2, stC2) :=
  ⟨by decide, claim_C7 entC2 stC2 (by decide)⟩

/-- Claim C9: boolean-from-integer coercion yields a strict boolean — 0
coerces to `false` and any nonzero integer to `true` — and reading the
`deleted` field of an entity constructed from such a raw record returns that
boolean. -/
theorem claim_C9 (n : Int) :
    coerce .boolean (.int n) = some (.bool (n != 0)) ∧
    ∀ (st : Store) (key : String) (raw : List (String × Val)) (e : Entity)
      (st1 : Store),
      lookupA st.recs key = some raw →
      lookupA raw "deleted" = some (.int n) →
      get_by_uuid st key [] = (some e, st1) →
      lookupA e.values "deleted" = some (.bool (n != 0)) := by
  refine ⟨rfl, ?_⟩
  intro st key raw e st1 hrec hraw hget
  unfold get_by_uuid load_by_key at hget
  simp only [] at hget
  rw [hrec] at hget
  rw [Prod.mk.injEq] at hget
  have hl := construct_lookup hget.1
    (show findField "deleted" = some ⟨"deleted", .boolean, false⟩ by decide)
    rfl hraw
  simpa using hl

def stC9 : Store :=
  ⟨[("k", [("deleted", .int 123)])], [], [], 0, 0, 0, 0, none⟩

def entC9 : Entity := ⟨"Instance", [("deleted", .bool true)], []⟩

theorem claim_C9_witness :
    coerce .boolean (.int 123) = some (.bool true) ∧
    coerce .boolean (.int 0) = some (.bool false) ∧
    lookupA entC9.values "deleted" = some (.bool true) :=
  ⟨(claim_C9 123).1, (claim_C9 0).1,
   (claim_C9 123).2 stC9 "k" [("deleted", .int 123)] entC9
     { stC9 with loadKeyCalls := 1 } (by decide) (by decide) (by decide)⟩

/-- Claim C10: a create request supplying both a net_id and a port_id, or a
fixed IP address without a net_id, fails with HTTPBadRequest before any
compute-API or network-API call is made. -/
theorem claim_C10 (body : Option Attachment) (serverId : String) (w : World)
    (h : ((truthy (body.bind Attachment.netId) && truthy (body.bind Attachment.portId))
          || (truthy (body.bind reqIpOf) && !truthy (body.bind Attachment.netId)))
         = true) :
    create body serverId w = ⟨.badRequest, 0, 0⟩ := by
  unfold create
  simp only []
  rw [Bool.or_eq_true] at h
  rcases h with h1 | h2
  · rw [if_pos h1]
  · by_cases h1 : (truthy (body.bind Attachment.netId) &&
        truthy (body.bind Attachment.portId)) = true
    · rw [if_pos h1]
    · rw [if_neg h1, if_pos h2]

theorem claim_C10_witness :
    ((truthy ((some ⟨some "net", some "port", []⟩ : Option Attachment).bind
        Attachment.netId) &&
      truthy ((some ⟨some "net", some "port", []⟩ : Option Attachment).bind
        Attachment.portId)) ||
     (truthy ((some ⟨some "net", some "port", []⟩ : Option Attachment).bind reqIpOf) &&
      !truthy ((some ⟨some "net", some "port", []⟩ : Option Attachment).bind
        Attachment.netId))) = true ∧
    create (some ⟨some "net", some "port", []⟩) "srv"
        ⟨true, .attached "vif", []⟩ = ⟨.badRequest, 0, 0⟩ :=
  ⟨by decide, claim_C10 (some ⟨some "net", some "port", []⟩) "srv"
    ⟨true, .attached "vif", []⟩ (by decide)⟩

/-- Claim C3: the first access of an unset lazy-capable optional field
invokes the persistence bridge's single-field loader exactly once (the load
counter increases by exactly one) and caches the coerced value on the
entity; a second access of the same field returns the cached value and
leaves both entity and store untouched (zero further loader invocations). -/
theorem claim_C3 (e : Entity) (st : Store) (f u : String)
    (raw : List (String × Val)) (rv v : Val)
    (hopt : optionalFields.contains f = true)
    (hunset : lookupA e.values f = none)
    (huuid : lookupA e.values "uuid" = some (.str u))
    (hrec : lookupA st.recs u = some raw)
    (hraw : lookupA raw f = some rv)
    (hco : coerce (ftypeOf f) rv = some v) :
    getAttr e st f =
      (some (v, { e with values := assocSet e.values f v }),
       { st with loadFieldCalls := st.loadFieldCalls + 1 }) ∧
    lookupA (assocSet e.values f v) f = some v ∧
    getAttr { e with values := assocSet e.values f v }
        { st with loadFieldCalls := st.loadFieldCalls + 1 } f =
      (some (v, { e with values := assocSet e.values f v }),
       { st with loadFieldCalls := st.loadFieldCalls + 1 }) := by
  have h2 : lookupA (assocSet e.values f v) f = some v :=
    lookupA_assocSet_self e.values f v
  refine ⟨?_, h2, ?_⟩
  · unfold getAttr load_field
    simp only [hunset, hopt, if_true, huuid, hrec, Option.some_bind, hraw, hco]
  · unfold getAttr
    simp only [h2]

def rawC3 : List (String × Val) :=
  [("uuid", .str "u3"), ("system_metadata", .kvlist [("foo", "bar")])]

def stC3 : Store := ⟨[("u3", rawC3)], [], [], 0, 0, 0, 0, none⟩

def entC3 : Entity := ⟨"Instance", [("uuid", .str "u3")], []⟩

theorem claim_C3_witness :
    optionalFields.contains "system_metadata" = true ∧
    lookupA entC3.values "system_metadata" = none ∧
    getAttr entC3 stC3 "system_metadata" =
      (some (.dict [("foo", "bar")],
        ⟨"Instance", [("uuid", .str "u3"),
          ("system_metadata", .dict [("foo", "bar")])], []⟩),
       ⟨[("u3", rawC3)], [], [], 0, 1, 0, 0, none⟩) :=
  ⟨by decide, by decide,
   (claim_C3 entC3 stC3 "system_metadata" "u3" rawC3 (.kvlist [("foo", "bar")])
     (.dict [("foo", "bar")]) (by decide) (by decide) (by decide) (by decide)
     (by decide) (by decide)).1⟩

/-- Claim C4: after a keyed load and exactly one field mutation, `save`
passes exactly that one field name/value pair to `update_and_fetch`, the
entity is rebuilt from the returned post-update record (so a field the
backing store changed as a side effect is readable afterwards), and the
change-set ends up empty. -/
theorem claim_C4 (st st1 st2 : Store) (key u f : String) (e e2 e3 : Entity)
    (v v2 : Val) (d : FieldDef) (pre : List (String × Val))
    (hget : get_by_uuid st key [] = (some e, st1))
    (hfield : findField f = some d)
    (hco : coerce d.ftype v = some v2)
    (he2 : setAttr e f v = some e2)
    (huuid : lookupA e2.values "uuid" = some (.str u))
    (hpre : lookupA st1.recs u = some pre)
    (hsave : save e2 st1 = (some e3, st2)) :
    st2.lastUpdateArgs = some (u, [(f, v2)]) ∧
    e3.changes = [] ∧
    construct_from_record
        (assocSetAll (assocSetAll pre [(f, v2)]) st1.sideEffect) (optSet e2) =
      some e3 ∧
    (∀ (g : String) (dg : FieldDef) (rv : Val), findField g = some dg →
      dg.opt = false →
      lookupA (assocSetAll (assocSetAll pre [(f, v2)]) st1.sideEffect) g = some rv →
      lookupA e3.values g = coerce dg.ftype rv) := by
  have hech : e.changes = [] := by
    unfold get_by_uuid at hget
    simp only [] at hget
    split at hget
    · simp at hget
    · rw [Prod.mk.injEq] at hget
      exact construct_changes hget.1
  have he2eq : e2 = { e with values := assocSet e.values f v2, changes := [f] } := by
    unfold setAttr at he2
    rw [hfield] at he2
    simp only [hco, Option.map_some', Option.some_inj] at he2
    rw [← he2, hech]
    simp [List.contains]
  subst he2eq
  have hupds : List.map
      (fun g => (g, (lookupA (assocSet e.values f v2) g).getD Val.null)) [f]
      = [(f, v2)] := by
    simp [lookupA_assocSet_self]
  unfold save at hsave
  simp only [] at hsave
  rw [if_neg (by simp)] at hsave
  rw [huuid] at hsave
  simp only [hupds] at hsave
  unfold update_and_fetch at hsave
  rw [hpre] at hsave
  simp only [] at hsave
  rw [Prod.mk.injEq] at hsave
  obtain ⟨hc, hst⟩ := hsave
  refine ⟨by rw [← hst], construct_changes hc, hc, ?_⟩
  intro g dg rv hg hdg hrv
  exact construct_lookup hc hg hdg hrv

def rawC4 : List (String × Val) :=
  [("uuid", .str "fake-uuid"), ("host", .str "oldhost"), ("user_data", .str "ud")]

def stC4 : Store :=
  ⟨[("fake-uuid", rawC4)], [], [("host", .str "newhost")], 0, 0, 0, 0, none⟩

def st1C4 : Store := { stC4 with loadKeyCalls := 1 }

def eC4 : Entity :=
  ⟨"Instance", [("uuid", .str "fake-uuid"), ("host", .str "oldhost"),
    ("user_data", .str "ud")], []⟩

def e2C4 : Entity :=
  ⟨"Instance", [("uuid", .str "fake-uuid"), ("host", .str "oldhost"),
    ("user_data", .str "foo")], ["user_data"]⟩

def postC4 : List (String × Val) :=
  [("uuid", .str "fake-uuid"), ("host", .str "newhost"), ("user_data", .str "foo")]

def e3C4 : Entity :=
  ⟨"Instance", [("uuid", .str "fake-uuid"), ("host", .str "newhost"),
    ("user_data", .str "foo")], []⟩

def st2C4 : Store :=
  ⟨[("fake-uuid", postC4)], [], [("host", .str "newhost")], 1, 0, 1, 0,
   some ("fake-uuid", [("user_data", .str "foo")])⟩

theorem claim_C4_witness :
    get_by_uuid stC4 "fake-uuid" [] = (some eC4, st1C4) ∧
    setAttr eC4 "user_data" (.str "foo") = some e2C4 ∧
    save e2C4 st1C4 = (some e3C4, st2C4) ∧
    st2C4.lastUpdateArgs = some ("fake-uuid", [("user_data", .str "foo")]) ∧
    e3C4.changes = [] ∧
    lookupA e3C4.values "host" = some (.str "newhost") :=
  ⟨by decide, by decide, by decide,
   (claim_C4 stC4 st1C4 st2C4 "fake-uuid" "fake-uuid" "user_data" eC4 e2C4 e3C4
     (.str "foo") (.str "foo") ⟨"user_data", .str, false⟩ rawC4 (by decide)
     (by decide) (by decide) (by decide) (by decide) (by decide) (by decide)).1,
   (claim_C4 stC4 st1C4 st2C4 "fake-uuid" "fake-uuid" "user_data" eC4 e2C4 e3C4
     (.str "foo") (.str "foo") ⟨"user_data", .str, false⟩ rawC4 (by decide)
     (by decide) (by decide) (by decide) (by decide) (by decide) (by decide)).2.1,
   (claim_C4 stC4 st1C4 st2C4 "fake-uuid" "fake-uuid" "user_data" eC4 e2C4 e3C4
     (.str "foo") (.str "foo") ⟨"user_data", .str, false⟩ rawC4 (by decide)
     (by decide) (by decide) (by decide) (by decide) (by decide) (by decide)).2.2.2
     "host" ⟨"host", .str, false⟩ (.str "newhost") (by decide) (by decide)
     (by decide)⟩

/-- Claim C8: a bulk list load over any sequence of raw records yields one
entity per raw record in store-given order, each element of the declared
element type, with empty aggregate change inspection. -/
theorem claim_C8 (raws : List (List (String × Val))) (exp : List String)
    (L : EntityList) (h : make_list raws exp = some L) :
    L.objects.length = raws.length ∧
    (∀ i (h1 : i < raws.length) (h2 : i < L.objects.length),
      construct_from_record (raws.get ⟨i, h1⟩) exp = some (L.objects.get ⟨i, h2⟩)) ∧
    (∀ o ∈ L.objects, o.name = "Instance") ∧
    list_what_changed L = [] := by
  unfold make_list at h
  rw [Option.map_eq_some'] at h
  obtain ⟨os, hos, rfl⟩ := h
  refine ⟨constructList_length hos, ?_, ?_, ?_⟩
  · intro i h1 h2
    simpa using constructList_get hos i h1 (by simpa using h2)
  · intro o ho
    obtain ⟨raw, hr⟩ := constructList_mem hos o (by simpa using ho)
    exact construct_name hr
  · unfold list_what_changed
    simp only [List.nil_append]
    apply foldr_changes_nil
    intro o ho
    obtain ⟨raw, hr⟩ := constructList_mem hos o (by simpa using ho)
    exact construct_changes hr

def rawsC8 : List (List (String × Val)) :=
  [[("uuid", .str "a")], [("uuid", .str "b")]]

def listC8 : EntityList :=
  ⟨[⟨"Instance", [("uuid", .str "a")], []⟩,
    ⟨"Instance", [("uuid", .str "b")], []⟩], []⟩

theorem claim_C8_witness :
    make_list rawsC8 [] = some listC8 ∧
    listC8.objects.length = rawsC8.length ∧
    (∀ o ∈ listC8.objects, o.name = "Instance") ∧
    list_what_changed listC8 = [] :=
  ⟨by decide, (claim_C8 rawsC8 [] listC8 (by decide)).1,
   (claim_C8 rawsC8 [] listC8 (by decide)).2.2.1,
   (claim_C8 rawsC8 [] listC8 (by decide)).2.2.2⟩

end Nova
